import Mathlib

/-!
# Verification of the transaction-validator core

Shallow embedding of the Go sources of the `transactioner` repository:
`models` (Fee, Instruction, Transaction), `accountsdb` (AccountsDb),
and `validator` (scoring, the transaction heap, the commutativity
check `isCommutative`, `CommitBatch` and the batch-building loop of
`ProcessTransactions`).

Numeric balances (Go `float64`) are embedded as exact rationals `ℚ`;
account maps are embedded as association lists with unique keys kept in
insertion order (Go map iteration order is unspecified; where the code
iterates a map we fix insertion order, and every claim settled below is
insensitive to that choice at the inputs used).  Code paths that `panic`
in Go are embedded as `Option`-valued functions returning `none`.
-/

set_option autoImplicit false
set_option synthInstance.maxSize 1024
set_option maxHeartbeats 1000000

namespace Txn

/-! ## Data model (`models/instruction.go`, `models/transaction.go`) -/

/-- Sign of a relative-transfer change descriptor (`"plus"` / `"minus"`). -/
inductive Sign where
  | plus
  | minus
deriving DecidableEq, Repr

/-- The untyped `change` union of `models.Instruction`: either a bare number
(absolute delta, Go `float64`) or an object `{account, sign}` (relative
transfer, Go `map[string]any`). -/
inductive Change where
  | abs (amount : ℚ)
  | rel (account : String) (sign : Sign)
deriving DecidableEq, Repr

/-- Embedding of `models.Instruction`. -/
structure Instruction where
  account : String
  change : Change
deriving DecidableEq, Repr

/-- Embedding of `models.Fee`. -/
structure Fee where
  payer : String
  amount : ℚ
deriving DecidableEq, Repr

/-- Embedding of `models.Transaction` (the heap bookkeeping fields `prio`
and `index` of `validator.Transaction` are implementation details of the
container and are recovered from `CalcScore` below). -/
structure Transaction where
  fee : Fee
  instructions : List Instruction
deriving DecidableEq, Repr

/-! ## Account maps (`accountsdb/accountsdb.go`)

`accountsdb.Accounts` is a Go `map[string]float64`; we embed it as an
association list with unique keys.  `alGet` is map lookup, `alSet` is map
assignment (update in place, or append for a fresh key). -/

/-- Association-list embedding of `map[string]float64`. -/
abbrev Accounts := List (String × ℚ)

/-- Map lookup: `m[k]` with its `ok` flag, i.e. `db.Accounts[account]`. -/
def alGet : Accounts → String → Option ℚ
  | [], _ => none
  | (k', v') :: rest, k => if k' = k then some v' else alGet rest k

/-- Map assignment `m[k] = v`: replace the existing entry or append a new one. -/
def alSet : Accounts → String → ℚ → Accounts
  | [], k, v => [(k, v)]
  | (k', v') :: rest, k, v =>
      if k' = k then (k, v) :: rest else (k', v') :: alSet rest k v

/-- Embedding of `AccountsDb.GetBalance`: the balance, or an error (`none`)
if the account does not exist. -/
def GetBalance (db : Accounts) (account : String) : Option ℚ :=
  alGet db account

/-- Embedding of `AccountsDb.Earn`: increase the `validator` account by
`amount` (`GetBalance` with the error ignored reads `0` for a missing
account). -/
def Earn (db : Accounts) (amount : ℚ) : Accounts :=
  alSet db "validator" ((alGet db "validator").getD 0 + amount)

/-- Embedding of `AccountsDb.InitFromSnapshot` (after JSON decoding): reject
any negative balance, then create the `validator` account with balance `0`
if absent. -/
def InitFromSnapshot (snapshot : List (String × ℚ)) : Option Accounts :=
  if snapshot.all (fun kv => 0 ≤ kv.2) then
    some (if (alGet snapshot "validator").isSome then snapshot
          else alSet snapshot "validator" 0)
  else none

/-! ## Scorer (`validator/transaction.go`, `CalcScore`) -/

/-- Embedding of `Transaction.CalcScore`:
`score := fee.Amount * 10; score += float64(len(instructions) * -5);
return int(math.Ceil(score / 2))`. -/
def CalcScore (tx : Transaction) : ℤ :=
  let score : ℚ := tx.fee.amount * 10
  let score := score + (tx.instructions.length : ℚ) * (-5)
  ⌈score / 2⌉

/-! ## Commutativity check (`validator/heap.go`, `isCommutative`)

The Go function first folds the transaction's instructions into a
`changes` map (seeded with `payer ↦ -fee`) together with the running
`sum` of instruction values, then validates `sum == 0`, then tests each
change against the working copy, and finally commits the surviving
changes to the working copy only.  The `changes` map is embedded as an
association list in insertion order. -/

/-- One step of the `changes`/`sum` build-up of `isCommutative` for a single
instruction.  `auth` is `vali.db` (the authoritative db, used to resolve
relative-transfer targets); the state is `(changes, sum)`.  Returns `none`
where the Go code panics (missing relative-transfer target account).

Note the faithful embedding of the `minus` branch: when the named account
has no entry in `changes` yet, the Go code stores `targetBalance` (not
`-targetBalance`). -/
def applyInstrChanges (auth : Accounts) (st : Accounts × ℚ) (instr : Instruction) :
    Option (Accounts × ℚ) :=
  match instr.change with
  | Change.abs c =>
      let sum := st.2 + c
      if 0 < c then some (st.1, sum)
      else
        match alGet st.1 instr.account with
        | some oldChange => some (alSet st.1 instr.account (oldChange + c), sum)
        | none => some (alSet st.1 instr.account c, sum)
  | Change.rel target sign =>
      match alGet auth target with
      | none => none
      | some targetBalance =>
          match sign with
          | Sign.plus => some (st.1, st.2 + targetBalance)
          | Sign.minus =>
              match alGet st.1 instr.account with
              | some oldChange =>
                  some (alSet st.1 instr.account (oldChange - targetBalance), st.2)
              | none => some (alSet st.1 instr.account targetBalance, st.2)

/-- The `changes` map and instruction `sum` computed by `isCommutative`:
seed `changes[payer] = -fee.Amount`, then fold all instructions. -/
def computeChanges (auth : Accounts) (tx : Transaction) : Option (Accounts × ℚ) :=
  tx.instructions.foldlM (applyInstrChanges auth) ([(tx.fee.payer, -tx.fee.amount)], 0)

/-- Outcome of the per-change test loop of `isCommutative` against the
working copy. -/
inductive CheckResult where
  /-- An account is missing from the working copy and its change is
  negative: `return true, errors.New("operation causes balance to go negative")`. -/
  | balanceErr
  /-- Some resulting balance would be negative: `return false, nil`. -/
  | nonCommutative
  /-- All changes pass; `kept` is the `changes` map minus the entries the
  loop deleted (missing account, non-negative change). -/
  | ok (kept : Accounts)
deriving DecidableEq, Repr

/-- The test loop of `isCommutative` over the `changes` map (in insertion
order; Go map iteration order is unspecified). -/
def checkChanges (working : Accounts) : Accounts → CheckResult
  | [] => CheckResult.ok []
  | (account, change) :: rest =>
      match alGet working account with
      | none =>
          if change < 0 then CheckResult.balanceErr
          else checkChanges working rest
      | some balance =>
          if balance + change < 0 then CheckResult.nonCommutative
          else
            match checkChanges working rest with
            | CheckResult.ok kept => CheckResult.ok ((account, change) :: kept)
            | r => r

/-- Embedding of `Validator.isCommutative`.  `vdb` is the authoritative
`vali.db`, `db` the working copy passed as the argument.  The result is
`(commutative, error, authoritative-after, working-after)`; the Go method
only ever writes to the copy, and only on the fully successful path, which
the embedding makes explicit by returning both databases. -/
def isCommutative (vdb db : Accounts) (tx : Transaction) :
    Option (Bool × Option String × Accounts × Accounts) :=
  (computeChanges vdb tx).map fun (st : Accounts × ℚ) =>
    if st.2 ≠ 0 then (true, some "instruction sum is non-zero", vdb, db)
    else
      match checkChanges db st.1 with
      | CheckResult.balanceErr =>
          (true, some "operation causes balance to go negative", vdb, db)
      | CheckResult.nonCommutative => (false, none, vdb, db)
      | CheckResult.ok kept =>
          (true, none, vdb,
            kept.foldl (fun w kv => alSet w kv.1 ((alGet w kv.1).getD 0 + kv.2)) db)

/-! ## Committer (`validator/heap.go`, `CommitBatch`)

`CommitBatch` mutates `vali.db` in place, transaction by transaction:
fee block first (read payer balance, `Earn` the fee, then write the
payer's new balance — in that order), then each instruction, resolving
relative-transfer targets from `vali.db` *as it stands at that point of
the commit*. -/

/-- One instruction of the commit loop.  `none` embeds the Go panics
(missing relative-transfer target). -/
def commitInstr (db : Accounts) (instr : Instruction) : Option Accounts :=
  match instr.change with
  | Change.abs c =>
      some (alSet db instr.account ((alGet db instr.account).getD 0 + c))
  | Change.rel target sign =>
      match alGet db target with
      | none => none
      | some targetBalance =>
          let balance := (alGet db instr.account).getD 0
          match sign with
          | Sign.plus => some (alSet db instr.account (balance + targetBalance))
          | Sign.minus => some (alSet db instr.account (balance - targetBalance))

/-- One transaction of `CommitBatch`: the fee block, then the instructions.
The payer balance is read before `Earn`, and written after it (so a payer
named `validator` has the `Earn` credit overwritten, as in the Go code). -/
def commitTx (db : Accounts) (tx : Transaction) : Option Accounts :=
  let balance := (alGet db tx.fee.payer).getD 0
  let db1 := Earn db tx.fee.amount
  let db2 := alSet db1 tx.fee.payer (balance - tx.fee.amount)
  tx.instructions.foldlM commitInstr db2

/-- Embedding of `Validator.CommitBatch` (the `batchIdx` counter is dropped). -/
def CommitBatch (db : Accounts) (batch : List Transaction) : Option Accounts :=
  batch.foldlM commitTx db

/-! ## Batch building (`validator/heap.go`, `ProcessTransactions`)

One batch-building pass of the `default:` branch: transactions are
consumed in heap-extraction order, which we pass in as an explicit list;
the pass stops when the batch holds 100 transactions or the queue is
drained.  Transactions judged non-commutative are sent back to the
transaction channel (collected in the `requeued` component); the other
`continue` paths drop the transaction. -/

/-- The batch-filling loop of `ProcessTransactions`.  `vdb` is the
authoritative db, `db` the working copy, the second list argument the
pending transactions in extraction order, `batch` the batch built so far.
Returns `(working copy, batch, requeued)`, or `none` where the Go code
panics. -/
def buildBatch (vdb : Accounts) : Accounts → List Transaction → List Transaction →
    Option (Accounts × List Transaction × List Transaction)
  | db, [], batch => some (db, batch, [])
  | db, tx :: rest, batch =>
    if batch.length < 100 then
      match GetBalance db tx.fee.payer with
      | none => buildBatch vdb db rest batch
      | some balance =>
          if balance - tx.fee.amount < 0 then buildBatch vdb db rest batch
          else
            match isCommutative vdb db tx with
            | none => none
            | some (isComm, some _, _, db') =>
                buildBatch vdb (if isComm then Earn db' tx.fee.amount else db') rest batch
            | some (false, none, _, db') =>
                (buildBatch vdb db' rest batch).map fun r => (r.1, r.2.1, tx :: r.2.2)
            | some (true, none, _, db') =>
                buildBatch vdb db' rest (batch ++ [tx])
    else some (db, batch, [])

/-- One full pass of the `default:` branch of `ProcessTransactions` with a
non-empty heap: copy the db, fill a batch, and — unless the batch is
empty — commit it to the authoritative db.  Returns the new authoritative
db, the committed batch (if any), and the requeued transactions. -/
def runPass (vdb : Accounts) (txs : List Transaction) :
    Option (Accounts × Option (List Transaction) × List Transaction) :=
  (buildBatch vdb vdb txs []).bind fun r =>
    if r.2.1.isEmpty then some (vdb, none, r.2.2)
    else (CommitBatch vdb r.2.1).map fun vdb' => (vdb', some r.2.1, r.2.2)

/-! ## The transaction heap (`validator/heap.go` and `container/heap`)

`TransactionHeap` is a slice satisfying `container/heap`'s interface with
`Less i j = heap[i].prio > heap[j].prio`, `prio` being `CalcScore` (set
once on receive).  We embed the slice as a list and `container/heap`'s
`up`/`down` sift loops as fuel-indexed structural recursions (the fuel
given below always dominates the loop count, which strictly descends).
`heap.Pop` on an empty heap indexes out of bounds and panics in Go;
`extractMax` returns `none` there. -/

/-- Priority of the element at index `i` (out-of-range reads, which never
occur on the paths below, default to `0`). -/
def scoreAt (l : List Transaction) (i : Nat) : ℤ :=
  ((l[i]?).map CalcScore).getD 0

/-- Embedding of `TransactionHeap.Less i j`: element `i` has strictly higher
priority than element `j`. -/
def heapLess (l : List Transaction) (i j : Nat) : Bool :=
  decide (scoreAt l j < scoreAt l i)

/-- Embedding of `TransactionHeap.Swap` (no-op when an index is out of
range, which never occurs on the paths below). -/
def swapAt (l : List Transaction) (i j : Nat) : List Transaction :=
  match l[i]?, l[j]? with
  | some a, some b => (l.set i b).set j a
  | _, _ => l

/-- The `up` sift loop of `container/heap`, with explicit fuel.  Each
iteration moves from `j` to its parent `(j-1)/2`; the loop breaks at the
root (`i == j` in Go, which happens exactly at `j = 0`) or when the parent
already has at least the child's priority. -/
def upAux : Nat → List Transaction → Nat → List Transaction
  | 0, l, _ => l
  | fuel + 1, l, j =>
      if j = 0 then l
      else
        let i := (j - 1) / 2
        if heapLess l j i then upAux fuel (swapAt l i j) i else l

/-- The `up` sift of `container/heap` starting at index `j` (`j + 1` fuel
dominates the strictly descending loop). -/
def up (l : List Transaction) (j : Nat) : List Transaction :=
  upAux (j + 1) l j

/-- Embedding of `heap.Push` (via `TransactionHeap.Push`): append, then sift
up from the last index. -/
def heapPush (l : List Transaction) (tx : Transaction) : List Transaction :=
  up (l ++ [tx]) l.length

/-- The `down` sift loop of `container/heap` on the first `n` elements,
with explicit fuel.  Each iteration moves from `i` to its higher-priority
child `j`. -/
def downAux : Nat → List Transaction → Nat → Nat → List Transaction
  | 0, l, _, _ => l
  | fuel + 1, l, i, n =>
      let j1 := 2 * i + 1
      if j1 < n then
        let j := if j1 + 1 < n && heapLess l (j1 + 1) j1 then j1 + 1 else j1
        if heapLess l j i then downAux fuel (swapAt l i j) j n else l
      else l

/-- The `down` sift of `container/heap` from index `i` within the first `n`
elements (`n + 1` fuel dominates the strictly ascending loop). -/
def down (l : List Transaction) (i n : Nat) : List Transaction :=
  downAux (n + 1) l i n

/-- Embedding of `heap.Pop` on a `TransactionHeap` (what
`Validator.NextTransaction` calls): swap the root with the last element,
sift the new root down within the shortened range, and remove the last
element.  On an empty heap Go's `h.Swap(0, h.Len()-1)` indexes out of
bounds and panics; that failure is embedded as `none`. -/
def extractMax (l : List Transaction) : Option (Transaction × List Transaction) :=
  match l with
  | [] => none
  | _ :: _ =>
      let n := l.length - 1
      let l2 := down (swapAt l 0 n) 0 n
      match l2.getLast? with
      | none => none
      | some tx => some (tx, l2.dropLast)

/-- The binary-heap invariant of `container/heap` for `TransactionHeap`:
every non-root element within range has priority at most its parent's. -/
def IsHeap (l : List Transaction) : Prop :=
  ∀ j, j < l.length → 0 < j → scoreAt l j ≤ scoreAt l ((j - 1) / 2)

instance (l : List Transaction) : Decidable (IsHeap l) :=
  Nat.decidableBallLT l.length fun j _ => 0 < j → scoreAt l j ≤ scoreAt l ((j - 1) / 2)

/-! ## Basic association-list lemmas -/

theorem alGet_alSet_self (l : Accounts) (k : String) (v : ℚ) :
    alGet (alSet l k v) k = some v := by
  induction l with
  | nil => simp [alGet, alSet]
  | cons kv rest ih =>
      by_cases h : kv.1 = k
      · simp [alGet, alSet, h]
      · simpa [alGet, alSet, h] using ih

theorem alGet_alSet_ne (l : Accounts) {k k' : String} (v : ℚ) (h : k ≠ k') :
    alGet (alSet l k v) k' = alGet l k' := by
  induction l with
  | nil => simp [alGet, alSet, h]
  | cons kv rest ih =>
      by_cases hk : kv.1 = k
      · simp [alGet, alSet, hk, h]
      · by_cases hk' : kv.1 = k'
        · have h' : k' ≠ k := fun e => h e.symm
          simp [alGet, alSet, hk, hk', h']
        · simpa [alGet, alSet, hk, hk'] using ih

/-! ## C8: the scoring function -/

/-- C8.  The score of a transaction is the integer ceiling of
`(fee.amount * 10 + instructionCount * (-5)) / 2`, and it depends only on
the fee amount and the number of instructions — in particular no zero-sum
(or any other) validity check on the instruction contents enters the
score.  (`CalcScore` is a pure function of the transaction by
construction, matching the side-effect-free Go method.) -/
theorem c8_score_formula :
    (∀ tx : Transaction,
        CalcScore tx =
          ⌈(tx.fee.amount * 10 + (tx.instructions.length : ℚ) * (-5)) / 2⌉) ∧
    (∀ t1 t2 : Transaction, t1.fee.amount = t2.fee.amount →
        t1.instructions.length = t2.instructions.length →
        CalcScore t1 = CalcScore t2) := by
  refine ⟨fun tx => rfl, fun t1 t2 hfee hlen => ?_⟩
  simp [CalcScore, hfee, hlen]

/-- Witness for C8 at concrete transactions: a zero-sum instruction list
and a non-zero-sum one of the same length and fee score identically, and
the score matches the ceiling formula. -/
theorem c8_score_formula_witness :
    CalcScore ⟨⟨"a", 10⟩, [⟨"x", Change.abs (-10)⟩, ⟨"y", Change.abs 10⟩]⟩ = 45 ∧
    CalcScore ⟨⟨"a", 10⟩, [⟨"x", Change.abs 1⟩, ⟨"y", Change.abs 2⟩]⟩ = 45 := by
  constructor
  · rw [c8_score_formula.1 ⟨⟨"a", 10⟩, [⟨"x", Change.abs (-10)⟩, ⟨"y", Change.abs 10⟩]⟩]
    with_unfolding_all decide
  · rw [c8_score_formula.2 ⟨⟨"a", 10⟩, [⟨"x", Change.abs 1⟩, ⟨"y", Change.abs 2⟩]⟩
        ⟨⟨"a", 10⟩, [⟨"x", Change.abs (-10)⟩, ⟨"y", Change.abs 10⟩]⟩ rfl rfl]
    with_unfolding_all decide

/-! ## C10: the commutativity check is read-only except on full success -/

/-- C10.  `isCommutative` never changes the authoritative db, and it
changes the working copy only when it reports the transaction commutative
with no error: on every error return and on the non-commutative return the
working copy comes back exactly unchanged. -/
theorem c10_isCommutative_frame :
    ∀ (vdb db : Accounts) (tx : Transaction) (b : Bool) (e : Option String)
      (vdb' db' : Accounts),
      isCommutative vdb db tx = some (b, e, vdb', db') →
      vdb' = vdb ∧ ((b = false ∨ e ≠ none) → db' = db) := by
  intro vdb db tx b e vdb' db' h
  unfold isCommutative at h
  cases hc : computeChanges vdb tx with
  | none => rw [hc] at h; cases h
  | some st =>
      rw [hc] at h
      replace h := Option.some.inj h
      beta_reduce at h
      split at h
      · injection h with h1 h
        injection h with h2 h
        injection h with h3 h4
        exact ⟨h3.symm, fun _ => h4.symm⟩
      · split at h
        · injection h with h1 h
          injection h with h2 h
          injection h with h3 h4
          exact ⟨h3.symm, fun _ => h4.symm⟩
        · injection h with h1 h
          injection h with h2 h
          injection h with h3 h4
          exact ⟨h3.symm, fun _ => h4.symm⟩
        · injection h with h1 h
          injection h with h2 h
          injection h with h3 h4
          refine ⟨h3.symm, fun hcontra => ?_⟩
          rcases hcontra with hf | hne
          · rw [← h1] at hf; cases hf
          · exact absurd h2.symm hne

/-- Witness for C10: a transaction judged non-commutative (payer cannot
cover the fee against the working copy after the seed delta) leaves both
databases unchanged. -/
theorem c10_isCommutative_frame_witness :
    [("a", (1 : ℚ)), ("validator", 0)] = [("a", (1 : ℚ)), ("validator", 0)] ∧
    ((false = false ∨ (none : Option String) ≠ none) →
      [("a", (1 : ℚ)), ("validator", 0)] = [("a", (1 : ℚ)), ("validator", 0)]) :=
  c10_isCommutative_frame [("a", 1), ("validator", 0)] [("a", 1), ("validator", 0)]
    ⟨⟨"a", 5⟩, []⟩ false none [("a", 1), ("validator", 0)] [("a", 1), ("validator", 0)]
    (by with_unfolding_all decide)

/-! ## C1 and C4: the `minus` relative-transfer bug

In `isCommutative`, a `minus` relative transfer on an account that has no
entry in the `changes` map yet stores `targetBalance` — a credit — where
the debit `-targetBalance` is required (the `else` branch of the `minus`
case writes `changes[instr.Account] = targetBalance`).  The speculative
check therefore misses the debit, admits the transaction, and the commit
then drives the account negative on the authoritative ledger. -/

/-- C1 (code bug).  Starting from a valid snapshot (all balances
non-negative), a single committed batch containing one `minus`
relative-transfer transaction leaves `alice` at `-90` on the authoritative
ledger: commit computes `10 - 100` while the commutativity check tested
`10 + 100` because of the sign slip in the `minus` branch. -/
theorem c1_minus_transfer_negative_balance :
    InitFromSnapshot [("alice", 10), ("bob", 100), ("carol", 50)]
      = some [("alice", 10), ("bob", 100), ("carol", 50), ("validator", 0)] ∧
    runPass [("alice", 10), ("bob", 100), ("carol", 50), ("validator", 0)]
        [⟨⟨"carol", 5⟩, [⟨"alice", Change.rel "bob" Sign.minus⟩]⟩]
      = some ([("alice", -90), ("bob", 100), ("carol", 45), ("validator", 5)],
              some [⟨⟨"carol", 5⟩, [⟨"alice", Change.rel "bob" Sign.minus⟩]⟩], []) ∧
    ((-90 : ℚ) < 0) := by
  with_unfolding_all decide

/-- C4 (code bug).  For a `minus` relative transfer on an account with no
prior entry in the delta map, the computed entry is `+targetBalance`
(here `+100`), not the subtraction `-targetBalance` (here `-100`) that the
specification describes. -/
theorem c4_minus_transfer_delta_sign :
    computeChanges [("bob", 100), ("validator", 0)]
        ⟨⟨"carol", 5⟩, [⟨"alice", Change.rel "bob" Sign.minus⟩]⟩
      = some ([("carol", -5), ("alice", 100)], 0) ∧
    alGet [("carol", (-5 : ℚ)), ("alice", 100)] "alice" = some 100 ∧
    some (100 : ℚ) ≠ some (-100 : ℚ) := by
  with_unfolding_all decide

/-! ## C2: counterexample to permutation-invariance of committed batches -/

/-- Committed batch used for the C2 counterexample: `c2TxA` credits `alice`
with an absolute delta, `c2TxB` then transfers `alice`'s balance — as read
from the evolving authoritative db — onto `dave`. -/
def c2TxA : Transaction := ⟨⟨"carol", 0⟩, [⟨"alice", Change.abs 5⟩, ⟨"bob2", Change.abs (-5)⟩]⟩

/-- Second transaction of the C2 counterexample batch. -/
def c2TxB : Transaction := ⟨⟨"carol", 0⟩, [⟨"dave", Change.rel "alice" Sign.plus⟩]⟩

/-- C2 (counterexample).  The pipeline commits the batch `[c2TxA, c2TxB]`,
but applying the same batch in the swapped order yields a different final
ledger: `dave` ends at `8` in commit order (the transfer reads `alice = 5`
after `c2TxA`) and at `3` in the swapped order (the transfer reads
`alice = 0`). -/
theorem c2_counterexample_order_dependent :
    runPass [("carol", 10), ("bob2", 5), ("dave", 3), ("alice", 0), ("validator", 0)]
        [c2TxA, c2TxB]
      = some ([("carol", 10), ("bob2", 0), ("dave", 8), ("alice", 5), ("validator", 0)],
              some [c2TxA, c2TxB], []) ∧
    CommitBatch [("carol", 10), ("bob2", 5), ("dave", 3), ("alice", 0), ("validator", 0)]
        [c2TxB, c2TxA]
      = some [("carol", 10), ("bob2", 0), ("dave", 3), ("alice", 5), ("validator", 0)] ∧
    some (8 : ℚ) ≠ some (3 : ℚ) := by
  with_unfolding_all decide

/-! ## C3: counterexample to "post-commit state equals the final working
snapshot" -/

/-- Transaction of the specification's own worked example: fee `10` paid by
`alice`, `alice -10`, `bob +10`. -/
def c3Tx : Transaction := ⟨⟨"alice", 10⟩, [⟨"alice", Change.abs (-10)⟩, ⟨"bob", Change.abs 10⟩]⟩

/-- C3 (counterexample).  For the spec's own example batch, the final
working snapshot holds `bob = 50` and `validator = 0` (batch building
pre-applies only the negative deltas and no admitted fee credit), while
the committed authoritative state holds `bob = 60` and `validator = 10`:
the Committer does not apply the same delta semantics as batch building,
and the post-commit state is not the final working snapshot. -/
theorem c3_commit_differs_from_working :
    buildBatch [("alice", 100), ("bob", 50), ("validator", 0)]
        [("alice", 100), ("bob", 50), ("validator", 0)] [c3Tx] []
      = some ([("alice", 80), ("bob", 50), ("validator", 0)], [c3Tx], []) ∧
    CommitBatch [("alice", 100), ("bob", 50), ("validator", 0)] [c3Tx]
      = some [("alice", 80), ("bob", 60), ("validator", 10)] ∧
    some (50 : ℚ) ≠ some (60 : ℚ) := by
  with_unfolding_all decide

/-! ## C5: counterexample for the missing-account branch -/

/-- Transaction of the C5 counterexample: zero instruction sum, but a
negative delta on `ghost`, an account absent from the working snapshot. -/
def c5Tx : Transaction := ⟨⟨"alice", 5⟩, [⟨"ghost", Change.abs (-3)⟩, ⟨"alice", Change.abs 3⟩]⟩

/-- C5 (counterexample).  A transaction whose speculative application finds
a missing account with a negative delta is *not* requeued: the pass ends
with an empty requeue list (the transaction is dropped) and its fee `5` is
charged — the working copy's `validator` account ends at `5`, not `0`. -/
theorem c5_missing_account_drops_with_fee :
    buildBatch [("alice", 100), ("validator", 0)] [("alice", 100), ("validator", 0)]
        [c5Tx] []
      = some ([("alice", 100), ("validator", 5)], [], []) ∧
    (5 : ℚ) ≠ 0 := by
  with_unfolding_all decide

/-! ## C6: counterexample to forfeited-fee conservation -/

/-- Malformed transaction of the C6 counterexample (instruction sum `1 ≠ 0`);
its fee `5` is charged to the discarded working copy only. -/
def c6TxBad : Transaction := ⟨⟨"alice", 5⟩, [⟨"alice", Change.abs 1⟩]⟩

/-- Admitted transaction of the C6 counterexample, with fee `10`. -/
def c6TxGood : Transaction := ⟨⟨"alice", 10⟩, []⟩

/-- C6 (counterexample).  In a pass that charges the malformed `c6TxBad`'s
fee (`5`) and commits `c6TxGood` (fee `10`), the authoritative `validator`
account rises by `10` only — the forfeited fee is credited to the working
copy, which is discarded, so the claimed increase `10 + 5` is wrong. -/
theorem c6_forfeited_fee_not_conserved :
    runPass [("alice", 100), ("validator", 0)] [c6TxBad, c6TxGood]
      = some ([("alice", 90), ("validator", 10)], some [c6TxGood], []) ∧
    (10 : ℚ) ≠ 10 + 5 := by
  with_unfolding_all decide

/-! ## C9: batch bound -/

/-- The batch-filling loop never grows the batch beyond 100 transactions:
admission happens only under the `len(batch) < 100` guard. -/
theorem buildBatch_length_le (pending : List Transaction) :
    ∀ (vdb db : Accounts) (batch : List Transaction)
      (r : Accounts × List Transaction × List Transaction),
      buildBatch vdb db pending batch = some r → batch.length ≤ 100 →
      r.2.1.length ≤ 100 := by
  induction pending with
  | nil =>
      intro vdb db batch r h hb
      rw [buildBatch] at h
      cases h
      exact hb
  | cons tx rest ih =>
      intro vdb db batch r h hb
      rw [buildBatch] at h
      by_cases hlen : batch.length < 100
      · rw [if_pos hlen] at h
        split at h
        · exact ih _ _ _ _ h hb
        · split at h
          · exact ih _ _ _ _ h hb
          · split at h
            · cases h
            · exact ih _ _ _ _ h hb
            · rcases Option.map_eq_some'.mp h with ⟨r', hr', hf⟩
              have hr := ih _ _ _ _ hr' hb
              rw [← hf]
              exact hr
            · refine ih _ _ _ _ h ?_
              simp only [List.length_append, List.length_cons, List.length_nil]
              omega
      · rw [if_neg hlen] at h
        cases h
        exact hb

/-- C9.  Every batch handed to the Committer has between 1 and 100
transactions: the loop never admits more than 100, and when the built
batch is empty nothing is committed — the authoritative ledger is returned
unchanged. -/
theorem c9_batch_bound :
    ∀ (vdb : Accounts) (txs : List Transaction)
      (r : Accounts × Option (List Transaction) × List Transaction),
      runPass vdb txs = some r →
      (∀ b, r.2.1 = some b → 1 ≤ b.length ∧ b.length ≤ 100) ∧
      (r.2.1 = none → r.1 = vdb) := by
  intro vdb txs r h
  unfold runPass at h
  cases hbb : buildBatch vdb vdb txs [] with
  | none => rw [hbb] at h; cases h
  | some q =>
      obtain ⟨db, batch, rq⟩ := q
      rw [hbb] at h
      simp only [Option.some_bind] at h
      by_cases hemp : batch.isEmpty
      · rw [if_pos hemp] at h
        cases h
        constructor
        · intro b hb
          exact nomatch hb
        · intro hn
          rfl
      · rw [if_neg hemp] at h
        cases hcb : CommitBatch vdb batch with
        | none => rw [hcb] at h; cases h
        | some vdb' =>
            rw [hcb] at h
            cases h
            refine ⟨fun b hb => ?_, fun hn => nomatch hn⟩
            cases hb
            constructor
            · have : batch ≠ [] := fun e => hemp (by simp [e])
              exact Nat.one_le_iff_ne_zero.mpr
                (fun e => this (List.length_eq_zero.mp e))
            · exact buildBatch_length_le txs vdb vdb [] _ hbb (by simp)

/-- Witness for C9: a concrete committed batch of one transaction. -/
theorem c9_batch_bound_witness :
    1 ≤ [(⟨⟨"alice", 1⟩, []⟩ : Transaction)].length ∧
    [(⟨⟨"alice", 1⟩, []⟩ : Transaction)].length ≤ 100 :=
  (c9_batch_bound [("alice", 10), ("validator", 0)] [⟨⟨"alice", 1⟩, []⟩]
      ([("alice", 9), ("validator", 1)], some [⟨⟨"alice", 1⟩, []⟩], [])
      (by with_unfolding_all decide)).1
    [⟨⟨"alice", 1⟩, []⟩] rfl

/-! ## C5 amended: the negative-result branch requeues -/

/-- C5 (amended).  A transaction that passes the fee-affordability check
and the zero-sum check, and whose speculative application finds a
resulting balance that would be negative on an account present in the
working snapshot (`checkChanges` returns `nonCommutative`), is returned to
the pending set: the pass continues with the remaining queue entries on
the *unchanged* working snapshot, the batch is unchanged, no fee is
charged, and the transaction is prepended to the requeue list.  (The
missing-account/negative-delta branch instead yields `balanceErr`: the
transaction is dropped with its fee charged — see the counterexample.) -/
theorem c5_amended_negative_result_requeues :
    ∀ (vdb db : Accounts) (tx : Transaction) (rest batch : List Transaction)
      (balance : ℚ) (st : Accounts × ℚ),
      batch.length < 100 →
      GetBalance db tx.fee.payer = some balance →
      ¬ balance - tx.fee.amount < 0 →
      computeChanges vdb tx = some st →
      st.2 = 0 →
      checkChanges db st.1 = CheckResult.nonCommutative →
      buildBatch vdb db (tx :: rest) batch =
        (buildBatch vdb db rest batch).map fun r => (r.1, r.2.1, tx :: r.2.2) := by
  intro vdb db tx rest batch balance st hlen hgb hfee hcc hsum hck
  have hic : isCommutative vdb db tx = some (false, none, vdb, db) := by
    unfold isCommutative
    rw [hcc]
    simp only [Option.map_some']
    rw [if_neg (by simp [hsum]), hck]
  rw [buildBatch, if_pos hlen, hgb]
  simp only [if_neg hfee, hic]

/-- Witness for C5 (amended): `a` can afford the fee `5` against balance
`10`, but the net delta `-15` would drive it to `-5`, so the transaction
is requeued and the pass returns the untouched working snapshot. -/
theorem c5_amended_negative_result_requeues_witness :
    buildBatch [("a", 10), ("validator", 0)] [("a", 10), ("validator", 0)]
        [⟨⟨"a", 5⟩, [⟨"a", Change.abs (-10)⟩, ⟨"b", Change.abs 10⟩]⟩] []
      = (buildBatch [("a", 10), ("validator", 0)] [("a", 10), ("validator", 0)] [] []).map
          (fun r => (r.1, r.2.1,
            (⟨⟨"a", 5⟩, [⟨"a", Change.abs (-10)⟩, ⟨"b", Change.abs 10⟩]⟩ : Transaction) :: r.2.2)) :=
  c5_amended_negative_result_requeues
    [("a", 10), ("validator", 0)] [("a", 10), ("validator", 0)]
    ⟨⟨"a", 5⟩, [⟨"a", Change.abs (-10)⟩, ⟨"b", Change.abs 10⟩]⟩ [] [] 10
    ([("a", -15)], 0)
    (by decide)
    (by with_unfolding_all decide)
    (by with_unfolding_all decide)
    (by with_unfolding_all decide)
    (by with_unfolding_all decide)
    (by with_unfolding_all decide)

/-! ## C6 amended: fee conservation for committed batches -/

/-- Frame lemma: committing a single instruction changes no account other
than the named one (relative transfers only read their target). -/
theorem commitInstr_frame (db r : Accounts) (i : Instruction) (a : String)
    (h : commitInstr db i = some r) (hne : i.account ≠ a) :
    alGet r a = alGet db a := by
  unfold commitInstr at h
  split at h
  · cases h
    exact alGet_alSet_ne _ _ hne
  · split at h
    · cases h
    · split at h
      · cases h
        exact alGet_alSet_ne _ _ hne
      · cases h
        exact alGet_alSet_ne _ _ hne

/-- Frame lemma for the instruction fold of `commitTx`. -/
theorem foldlM_commitInstr_frame (a : String) :
    ∀ (l : List Instruction) (db r : Accounts),
      (∀ i ∈ l, i.account ≠ a) → l.foldlM commitInstr db = some r →
      alGet r a = alGet db a := by
  intro l
  induction l with
  | nil =>
      intro db r _ h
      cases h
      rfl
  | cons i rest ih =>
      intro db r hne h
      rw [List.foldlM_cons] at h
      cases hci : commitInstr db i with
      | none => rw [hci] at h; cases h
      | some db1 =>
          rw [hci] at h
          simp only [Option.bind_eq_bind, Option.some_bind] at h
          have h1 := commitInstr_frame db db1 i a hci (hne i (List.mem_cons_self i rest))
          have h2 := ih db1 r (fun j hj => hne j (List.mem_cons_of_mem i hj)) h
          rw [h2, h1]

/-- Committing one transaction whose payer and instruction accounts avoid
`validator` leaves the validator account at exactly its old balance plus
the transaction's fee. -/
theorem commitTx_validator (db r : Accounts) (tx : Transaction)
    (h : commitTx db tx = some r)
    (hp : tx.fee.payer ≠ "validator")
    (hi : ∀ i ∈ tx.instructions, i.account ≠ "validator") :
    alGet r "validator" = some ((alGet db "validator").getD 0 + tx.fee.amount) := by
  unfold commitTx at h
  have hstep := foldlM_commitInstr_frame "validator" tx.instructions _ r hi h
  rw [hstep, alGet_alSet_ne _ _ hp, Earn, alGet_alSet_self]

/-- Fee accumulation over a committed batch avoiding the validator account. -/
theorem CommitBatch_validator :
    ∀ (batch : List Transaction) (db r : Accounts),
      (∀ tx ∈ batch, tx.fee.payer ≠ "validator" ∧
        ∀ i ∈ tx.instructions, i.account ≠ "validator") →
      CommitBatch db batch = some r →
      (alGet r "validator").getD 0 =
        (alGet db "validator").getD 0 + (batch.map (fun t => t.fee.amount)).sum := by
  intro batch
  induction batch with
  | nil =>
      intro db r _ h
      cases h
      simp
  | cons tx rest ih =>
      intro db r hno h
      rw [CommitBatch, List.foldlM_cons] at h
      cases hct : commitTx db tx with
      | none => rw [hct] at h; cases h
      | some db1 =>
          rw [hct] at h
          simp only [Option.bind_eq_bind, Option.some_bind] at h
          have hv := commitTx_validator db db1 tx hct
            (hno tx (List.mem_cons_self tx rest)).1 (hno tx (List.mem_cons_self tx rest)).2
          have hr := ih db1 r (fun t ht => hno t (List.mem_cons_of_mem tx ht)) h
          rw [hr, hv]
          simp only [Option.getD_some, List.map_cons, List.sum_cons]
          ring

/-- Every transaction of the built batch came from the pending queue or the
initial batch. -/
theorem buildBatch_batch_mem (pending : List Transaction) :
    ∀ (vdb db : Accounts) (batch : List Transaction)
      (r : Accounts × List Transaction × List Transaction),
      buildBatch vdb db pending batch = some r →
      ∀ t ∈ r.2.1, t ∈ pending ∨ t ∈ batch := by
  induction pending with
  | nil =>
      intro vdb db batch r h t ht
      rw [buildBatch] at h
      cases h
      exact Or.inr ht
  | cons tx rest ih =>
      intro vdb db batch r h t ht
      rw [buildBatch] at h
      by_cases hlen : batch.length < 100
      · rw [if_pos hlen] at h
        split at h
        · rcases ih _ _ _ _ h t ht with hl | hr
          · exact Or.inl (List.mem_cons_of_mem tx hl)
          · exact Or.inr hr
        · split at h
          · rcases ih _ _ _ _ h t ht with hl | hr
            · exact Or.inl (List.mem_cons_of_mem tx hl)
            · exact Or.inr hr
          · split at h
            · cases h
            · rcases ih _ _ _ _ h t ht with hl | hr
              · exact Or.inl (List.mem_cons_of_mem tx hl)
              · exact Or.inr hr
            · rcases Option.map_eq_some'.mp h with ⟨r', hr', hf⟩
              rw [← hf] at ht
              rcases ih _ _ _ _ hr' t ht with hl | hr
              · exact Or.inl (List.mem_cons_of_mem tx hl)
              · exact Or.inr hr
            · rcases ih _ _ _ _ h t ht with hl | hr
              · exact Or.inl (List.mem_cons_of_mem tx hl)
              · rcases List.mem_append.mp hr with hb | hx
                · exact Or.inr hb
                · rcases List.mem_singleton.mp hx with rfl
                  exact Or.inl (List.mem_cons_self t rest)
      · rw [if_neg hlen] at h
        cases h
        exact Or.inr ht

/-- C6 (amended).  For every pass that commits a batch, the validator
account's authoritative balance rises by exactly the sum of the committed
transactions' fees, provided no pending transaction names `validator` as
fee payer or instruction account.  Forfeited fees of malformed
transactions touch only the working copy, which `runPass` discards. -/
theorem c6_amended_fee_conservation :
    ∀ (vdb : Accounts) (txs : List Transaction)
      (r : Accounts × Option (List Transaction) × List Transaction)
      (b : List Transaction),
      runPass vdb txs = some r → r.2.1 = some b →
      (∀ tx ∈ txs, tx.fee.payer ≠ "validator" ∧
        ∀ i ∈ tx.instructions, i.account ≠ "validator") →
      (alGet r.1 "validator").getD 0 =
        (alGet vdb "validator").getD 0 + (b.map (fun t => t.fee.amount)).sum := by
  intro vdb txs r b h hb hno
  unfold runPass at h
  cases hbb : buildBatch vdb vdb txs [] with
  | none => rw [hbb] at h; cases h
  | some q =>
      obtain ⟨db, batch, rq⟩ := q
      rw [hbb] at h
      simp only [Option.some_bind] at h
      by_cases hemp : batch.isEmpty
      · rw [if_pos hemp] at h
        cases h
        cases hb
      · rw [if_neg hemp] at h
        cases hcb : CommitBatch vdb batch with
        | none => rw [hcb] at h; cases h
        | some vdb' =>
            rw [hcb] at h
            cases h
            cases hb
            refine CommitBatch_validator _ vdb vdb' ?_ hcb
            intro t ht
            rcases buildBatch_batch_mem txs vdb vdb [] _ hbb t ht with hl | hr
            · exact hno t hl
            · cases hr

/-- Witness for C6 (amended): one committed transaction with fee `1`;
the validator account rises from `0` to exactly `1`. -/
theorem c6_amended_fee_conservation_witness :
    (alGet ([("alice", 9), ("validator", 1)] : Accounts) "validator").getD 0 =
      (alGet ([("alice", 10), ("validator", 0)] : Accounts) "validator").getD 0 +
        ([(⟨⟨"alice", 1⟩, []⟩ : Transaction)].map (fun t => t.fee.amount)).sum :=
  c6_amended_fee_conservation [("alice", 10), ("validator", 0)] [⟨⟨"alice", 1⟩, []⟩]
    ([("alice", 9), ("validator", 1)], some [⟨⟨"alice", 1⟩, []⟩], [])
    [⟨⟨"alice", 1⟩, []⟩]
    (by with_unfolding_all decide) rfl
    (by intro tx htx
        rcases List.mem_singleton.mp htx with rfl
        exact ⟨by decide, by intro i hi; cases hi⟩)


/-! ## C2 amended: absolute-only batches commute

For a transaction whose instructions are all absolute deltas, each commit
step is a per-account additive bump, so the whole transaction acts as a
list of account-delta operations determined by the transaction alone;
batches of such transactions are permutation-invariant. -/

/-- Decides whether every instruction of a transaction is an absolute
delta. -/
def absOnly (tx : Transaction) : Bool :=
  tx.instructions.all fun i =>
    match i.change with
    | Change.abs _ => true
    | Change.rel _ _ => false

/-- The additive operations of a list of absolute-delta instructions. -/
def absOps (l : List Instruction) : List (String × ℚ) :=
  l.filterMap fun i =>
    match i.change with
    | Change.abs c => some (i.account, c)
    | Change.rel _ _ => none

/-- The additive operations of the fee block of `commitTx`: debit the
payer, credit `validator` — except that a payer named `validator` has the
`Earn` credit overwritten, leaving only the debit. -/
def feeOps (tx : Transaction) : List (String × ℚ) :=
  if tx.fee.payer = "validator" then [(tx.fee.payer, -tx.fee.amount)]
  else [(tx.fee.payer, -tx.fee.amount), ("validator", tx.fee.amount)]

/-- All additive operations of one absolute-only transaction. -/
def txOps (tx : Transaction) : List (String × ℚ) :=
  feeOps tx ++ absOps tx.instructions

/-- Apply additive operations in order: each op reads the account
(default `0`), adds its delta and writes back. -/
def applyOps (ops : List (String × ℚ)) (db : Accounts) : Accounts :=
  ops.foldl (fun d kv => alSet d kv.1 ((alGet d kv.1).getD 0 + kv.2)) db

/-- Whether some operation touches account `a`. -/
def opsTouch (ops : List (String × ℚ)) (a : String) : Bool :=
  ops.any fun kv => kv.1 = a

/-- Total delta the operations apply to account `a`. -/
def opsSum (ops : List (String × ℚ)) (a : String) : ℚ :=
  ((ops.filter fun kv => kv.1 = a).map fun kv => kv.2).sum

theorem opsSum_of_not_touch (ops : List (String × ℚ)) (a : String)
    (h : opsTouch ops a = false) : opsSum ops a = 0 := by
  unfold opsTouch at h
  unfold opsSum
  have hnil : ops.filter (fun kv => kv.1 = a) = [] := by
    rw [List.filter_eq_nil_iff]
    intro kv hkv hdec
    rw [List.any_eq_false] at h
    exact absurd hdec (h kv hkv)
  rw [hnil]
  rfl

theorem opsSum_append (o1 o2 : List (String × ℚ)) (a : String) :
    opsSum (o1 ++ o2) a = opsSum o1 a + opsSum o2 a := by
  unfold opsSum
  rw [List.filter_append, List.map_append, List.sum_append]

theorem opsTouch_append (o1 o2 : List (String × ℚ)) (a : String) :
    opsTouch (o1 ++ o2) a = (opsTouch o1 a || opsTouch o2 a) :=
  List.any_append

/-- Pointwise effect of `applyOps`. -/
theorem alGet_applyOps :
    ∀ (ops : List (String × ℚ)) (db : Accounts) (a : String),
      alGet (applyOps ops db) a =
        if opsTouch ops a then some ((alGet db a).getD 0 + opsSum ops a)
        else alGet db a := by
  intro ops
  induction ops with
  | nil =>
      intro db a
      simp [applyOps, opsTouch]
  | cons kv ops ih =>
      intro db a
      have hstep : applyOps (kv :: ops) db =
          applyOps ops (alSet db kv.1 ((alGet db kv.1).getD 0 + kv.2)) := rfl
      rw [hstep, ih]
      by_cases ha : kv.1 = a
      · subst ha
        have hget : alGet (alSet db kv.1 ((alGet db kv.1).getD 0 + kv.2)) kv.1 =
            some ((alGet db kv.1).getD 0 + kv.2) := alGet_alSet_self ..
        have htouch : opsTouch (kv :: ops) kv.1 = true := by
          simp [opsTouch]
        have hsum : opsSum (kv :: ops) kv.1 = kv.2 + opsSum ops kv.1 := by
          unfold opsSum
          simp [List.filter_cons]
        rw [htouch, if_pos rfl]
        by_cases ht : opsTouch ops kv.1 = true
        · rw [if_pos ht, hget, hsum]
          simp only [Option.getD_some]
          congr 1
          ring
        · rw [if_neg ht, hget, hsum,
            opsSum_of_not_touch ops kv.1 (Bool.eq_false_iff.mpr ht)]
          congr 1
          ring
      · have hget : alGet (alSet db kv.1 ((alGet db kv.1).getD 0 + kv.2)) a =
            alGet db a := alGet_alSet_ne _ _ ha
        have htouch : opsTouch (kv :: ops) a = opsTouch ops a := by
          simp [opsTouch, List.any_cons, ha]
        have hsum : opsSum (kv :: ops) a = opsSum ops a := by
          unfold opsSum
          simp [List.filter_cons, ha]
        rw [htouch, hsum, hget]

theorem getD_applyOps (ops : List (String × ℚ)) (db : Accounts) (a : String) :
    (alGet (applyOps ops db) a).getD 0 = (alGet db a).getD 0 + opsSum ops a := by
  rw [alGet_applyOps]
  by_cases ht : opsTouch ops a = true
  · rw [if_pos ht]
    rfl
  · rw [if_neg ht, opsSum_of_not_touch ops a (Bool.eq_false_iff.mpr ht)]
    ring


/-- The fee block of `commitTx`, written as the state it leaves behind. -/
def feeBlock (db : Accounts) (tx : Transaction) : Accounts :=
  alSet (Earn db tx.fee.amount) tx.fee.payer
    ((alGet db tx.fee.payer).getD 0 - tx.fee.amount)

/-- Pointwise effect of the fee block: it behaves as `applyOps (feeOps tx)`
(including the payer-equals-validator overwrite). -/
theorem alGet_feeBlock (db : Accounts) (tx : Transaction) (a : String) :
    alGet (feeBlock db tx) a =
      if opsTouch (feeOps tx) a then
        some ((alGet db a).getD 0 + opsSum (feeOps tx) a)
      else alGet db a := by
  unfold feeBlock Earn feeOps
  by_cases hp : tx.fee.payer = "validator"
  · rw [if_pos hp]
    by_cases ha : tx.fee.payer = a
    · subst ha
      rw [hp, alGet_alSet_self]
      have htouch : opsTouch [(tx.fee.payer, -tx.fee.amount)] tx.fee.payer = true := by
        simp [opsTouch]
      rw [hp] at htouch
      rw [htouch, if_pos rfl]
      have hsum : opsSum [(tx.fee.payer, -tx.fee.amount)] tx.fee.payer =
          -tx.fee.amount := by
        simp [opsSum]
      rw [hp] at hsum
      rw [hsum]
      congr 1
      ring
    · have htouch : opsTouch [(tx.fee.payer, -tx.fee.amount)] a = false := by
        simp [opsTouch, ha]
      rw [htouch, if_neg (by simp)]
      rw [alGet_alSet_ne _ _ ha, alGet_alSet_ne _ _ (hp ▸ ha)]
  · rw [if_neg hp]
    by_cases ha : tx.fee.payer = a
    · subst ha
      rw [alGet_alSet_self]
      have htouch : opsTouch
          [(tx.fee.payer, -tx.fee.amount), ("validator", tx.fee.amount)]
          tx.fee.payer = true := by
        simp [opsTouch]
      rw [htouch, if_pos rfl]
      have hsum : opsSum
          [(tx.fee.payer, -tx.fee.amount), ("validator", tx.fee.amount)]
          tx.fee.payer = -tx.fee.amount := by
        have hv : ¬ ("validator" = tx.fee.payer) := fun e => hp e.symm
        simp [opsSum, List.filter_cons, hv]
      rw [hsum]
      congr 1
      ring
    · by_cases hv : a = "validator"
      · subst hv
        rw [alGet_alSet_ne _ _ ha, alGet_alSet_self]
        have htouch : opsTouch
            [(tx.fee.payer, -tx.fee.amount), ("validator", tx.fee.amount)]
            "validator" = true := by
          simp [opsTouch]
        rw [htouch, if_pos rfl]
        have hsum : opsSum
            [(tx.fee.payer, -tx.fee.amount), ("validator", tx.fee.amount)]
            "validator" = tx.fee.amount := by
          simp [opsSum, List.filter_cons, hp]
        rw [hsum]
      · have hv' : ¬ ("validator" = a) := fun e => hv e.symm
        rw [alGet_alSet_ne _ _ ha, alGet_alSet_ne _ _ hv']
        have htouch : opsTouch
            [(tx.fee.payer, -tx.fee.amount), ("validator", tx.fee.amount)]
            a = false := by
          simp [opsTouch, ha, hv']
        rw [htouch, if_neg (by simp)]

/-- For absolute-only instruction lists, the commit fold is exactly
`applyOps` of the instructions' operations. -/
theorem foldlM_commitInstr_absOps :
    ∀ (l : List Instruction) (db : Accounts),
      (∀ i ∈ l, ∃ c, i.change = Change.abs c) →
      l.foldlM commitInstr db = some (applyOps (absOps l) db) := by
  intro l
  induction l with
  | nil =>
      intro db _
      rfl
  | cons i rest ih =>
      intro db habs
      obtain ⟨c, hc⟩ := habs i (List.mem_cons_self i rest)
      rw [List.foldlM_cons]
      have hstep : commitInstr db i =
          some (alSet db i.account ((alGet db i.account).getD 0 + c)) := by
        unfold commitInstr
        rw [hc]
      rw [hstep]
      simp only [Option.bind_eq_bind, Option.some_bind]
      have hops : absOps (i :: rest) = (i.account, c) :: absOps rest := by
        unfold absOps
        rw [List.filterMap_cons, hc]
      rw [hops]
      exact ih _ (fun j hj => habs j (List.mem_cons_of_mem i hj))

/-- Pointwise effect of committing one absolute-only transaction. -/
theorem commitTx_absOnly_char (db : Accounts) (tx : Transaction)
    (habs : absOnly tx = true) :
    commitTx db tx = some (applyOps (absOps tx.instructions) (feeBlock db tx)) ∧
    ∀ a, alGet (applyOps (absOps tx.instructions) (feeBlock db tx)) a =
      if opsTouch (txOps tx) a then
        some ((alGet db a).getD 0 + opsSum (txOps tx) a)
      else alGet db a := by
  have habs' : ∀ i ∈ tx.instructions, ∃ c, i.change = Change.abs c := by
    intro i hi
    have := List.all_eq_true.mp habs i hi
    revert this
    cases hch : i.change with
    | abs c => intro _; exact ⟨c, rfl⟩
    | rel t s => intro hfalse; cases hfalse
  constructor
  · unfold commitTx
    exact foldlM_commitInstr_absOps tx.instructions (feeBlock db tx) habs'
  · intro a
    rw [alGet_applyOps, alGet_feeBlock]
    unfold txOps
    rw [opsTouch_append, opsSum_append]
    by_cases hti : opsTouch (absOps tx.instructions) a = true
    · rw [if_pos hti]
      by_cases htf : opsTouch (feeOps tx) a = true
      · rw [if_pos htf, if_pos (by rw [htf, hti]; rfl)]
        simp only [Option.getD_some]
        congr 1
        ring
      · rw [if_neg htf, if_pos (by rw [hti, Bool.eq_false_iff.mpr htf]; rfl),
          opsSum_of_not_touch _ _ (Bool.eq_false_iff.mpr htf)]
        congr 1
        ring
    · rw [if_neg hti, opsSum_of_not_touch _ _ (Bool.eq_false_iff.mpr hti)]
      by_cases htf : opsTouch (feeOps tx) a = true
      · rw [if_pos htf, if_pos (by rw [htf]; rfl)]
        congr 1
        ring
      · rw [if_neg htf, if_neg (by rw [Bool.eq_false_iff.mpr htf, Bool.eq_false_iff.mpr hti]; simp)]


/-- Pointwise effect of committing a batch of absolute-only transactions:
each account ends at its old balance plus the batch's total delta for it. -/
theorem CommitBatch_absOnly_char :
    ∀ (l : List Transaction) (db : Accounts),
      (∀ t ∈ l, absOnly t = true) →
      ∃ r, CommitBatch db l = some r ∧
        ∀ a, alGet r a =
          if l.any (fun t => opsTouch (txOps t) a) then
            some ((alGet db a).getD 0 + (l.map fun t => opsSum (txOps t) a).sum)
          else alGet db a := by
  intro l
  induction l with
  | nil =>
      intro db _
      refine ⟨db, rfl, fun a => ?_⟩
      simp
  | cons t l ih =>
      intro db habs
      obtain ⟨hct, hchar⟩ := commitTx_absOnly_char db t (habs t (List.mem_cons_self t l))
      obtain ⟨r, hcr, hrchar⟩ :=
        ih (applyOps (absOps t.instructions) (feeBlock db t))
          (fun u hu => habs u (List.mem_cons_of_mem t hu))
      refine ⟨r, ?_, ?_⟩
      · rw [CommitBatch, List.foldlM_cons, hct]
        simp only [Option.bind_eq_bind, Option.some_bind]
        exact hcr
      · intro a
        have hgetD : (alGet (applyOps (absOps t.instructions) (feeBlock db t)) a).getD 0 =
            (alGet db a).getD 0 + opsSum (txOps t) a := by
          rw [hchar a]
          by_cases ht : opsTouch (txOps t) a = true
          · rw [if_pos ht]
            rfl
          · rw [if_neg ht, opsSum_of_not_touch _ _ (Bool.eq_false_iff.mpr ht)]
            ring
        rw [hrchar a]
        by_cases hl : (l.any fun u => opsTouch (txOps u) a) = true
        · rw [if_pos hl, hgetD]
          have hany : ((t :: l).any fun u => opsTouch (txOps u) a) = true := by
            simp [List.any_cons, hl]
          rw [hany, if_pos rfl]
          simp only [List.map_cons, List.sum_cons]
          congr 1
          ring
        · have hsuml : (l.map fun u => opsSum (txOps u) a).sum = 0 := by
            refine List.sum_eq_zero ?_
            intro x hx
            rcases List.mem_map.mp hx with ⟨u, hu, rfl⟩
            refine opsSum_of_not_touch _ _ ?_
            have hlf := Bool.eq_false_iff.mpr hl
            rw [List.any_eq_false] at hlf
            exact Bool.eq_false_iff.mpr (hlf u hu)
          rw [if_neg hl, hchar a]
          by_cases ht : opsTouch (txOps t) a = true
          · have hany : ((t :: l).any fun u => opsTouch (txOps u) a) = true := by
              simp [List.any_cons, ht]
            rw [if_pos ht, hany, if_pos rfl]
            simp only [List.map_cons, List.sum_cons, hsuml]
            congr 1
            ring
          · have hany : ((t :: l).any fun u => opsTouch (txOps u) a) = false := by
              rw [List.any_cons, Bool.or_eq_false_iff]
              exact ⟨Bool.eq_false_iff.mpr ht, Bool.eq_false_iff.mpr hl⟩
            rw [if_neg ht, hany]
            simp

/-- Permutations preserve `List.any`. -/
theorem perm_any_eq {α : Type} (p : α → Bool) {l1 l2 : List α}
    (h : l1.Perm l2) : l1.any p = l2.any p := by
  cases h1 : l1.any p
  · cases h2 : l2.any p
    · rfl
    · rcases List.any_eq_true.mp h2 with ⟨x, hx, hpx⟩
      have hc : l1.any p = true := List.any_eq_true.mpr ⟨x, h.mem_iff.mpr hx, hpx⟩
      rw [h1] at hc
      cases hc
  · rcases List.any_eq_true.mp h1 with ⟨x, hx, hpx⟩
    exact (List.any_eq_true.mpr ⟨x, h.mem_iff.mp hx, hpx⟩).symm

/-- C2 (amended).  Committing a batch of transactions whose instructions
are all absolute deltas is permutation-invariant: any two orders of the
same multiset of such transactions commit successfully and produce
pointwise-identical ledgers.  (General batches are not permutation
invariant — relative transfers read the ledger as it evolves during the
commit; see the counterexample.) -/
theorem c2_amended_absolute_batches_commute :
    ∀ (l1 l2 : List Transaction) (db : Accounts),
      l1.Perm l2 → (∀ t ∈ l1, absOnly t = true) →
      ∃ r1 r2, CommitBatch db l1 = some r1 ∧ CommitBatch db l2 = some r2 ∧
        ∀ a, alGet r1 a = alGet r2 a := by
  intro l1 l2 db hperm habs
  obtain ⟨r1, hc1, hchar1⟩ := CommitBatch_absOnly_char l1 db habs
  obtain ⟨r2, hc2, hchar2⟩ :=
    CommitBatch_absOnly_char l2 db (fun t ht => habs t (hperm.mem_iff.mpr ht))
  refine ⟨r1, r2, hc1, hc2, fun a => ?_⟩
  rw [hchar1 a, hchar2 a]
  have hany := perm_any_eq (fun t => opsTouch (txOps t) a) hperm
  have hsum : (l1.map fun t => opsSum (txOps t) a).sum =
      (l2.map fun t => opsSum (txOps t) a).sum :=
    (hperm.map fun t => opsSum (txOps t) a).sum_eq
  rw [hany, hsum]

/-- Witness for C2 (amended): swapping a two-transaction absolute-only
batch produces pointwise-identical ledgers. -/
theorem c2_amended_absolute_batches_commute_witness :
    ∃ r1 r2,
      CommitBatch [("x", 5), ("y", 5), ("validator", 0)]
          [⟨⟨"x", 1⟩, [⟨"y", Change.abs (-2)⟩, ⟨"z", Change.abs 2⟩]⟩,
           ⟨⟨"y", 2⟩, []⟩] = some r1 ∧
      CommitBatch [("x", 5), ("y", 5), ("validator", 0)]
          [⟨⟨"y", 2⟩, []⟩,
           ⟨⟨"x", 1⟩, [⟨"y", Change.abs (-2)⟩, ⟨"z", Change.abs 2⟩]⟩] = some r2 ∧
      ∀ a, alGet r1 a = alGet r2 a :=
  c2_amended_absolute_batches_commute
    [⟨⟨"x", 1⟩, [⟨"y", Change.abs (-2)⟩, ⟨"z", Change.abs 2⟩]⟩, ⟨⟨"y", 2⟩, []⟩]
    [⟨⟨"y", 2⟩, []⟩, ⟨⟨"x", 1⟩, [⟨"y", Change.abs (-2)⟩, ⟨"z", Change.abs 2⟩]⟩]
    [("x", 5), ("y", 5), ("validator", 0)]
    (List.Perm.swap _ _ _)
    (by intro t ht
        rcases List.mem_cons.mp ht with rfl | ht2
        · decide
        · rcases List.mem_singleton.mp ht2 with rfl
          decide)


/-! ## C3 amended: mid-commit versus pre-batch transfer resolution

`CommitBatch` resolves relative-transfer targets from `vali.db` as it
stands mid-commit.  The spec instead demands resolution from the
authoritative ledger as it stood before the batch's commit; the two
coincide exactly when no transfer target is an account the batch itself
writes. -/

/-- Whether committing `tx` writes account `a`: the fee payer, the
`validator` account (via `Earn`), and every instruction's named account. -/
def touchedTx (tx : Transaction) (a : String) : Bool :=
  tx.fee.payer = a || a = "validator" || tx.instructions.any fun i => i.account = a

/-- Whether any transaction of the batch writes account `a`. -/
def touchedBatch (batch : List Transaction) (a : String) : Bool :=
  batch.any fun t => touchedTx t a

/-- Following the spec's words (§4.4): one commit instruction, but
resolving the RelativeTransfer target from the authoritative ledger
`auth0` as it stood *before this batch's commit*.  Identical to
`commitInstr` except for the ledger the target balance is read from. -/
def commitInstrSpec (auth0 db : Accounts) (instr : Instruction) : Option Accounts :=
  match instr.change with
  | Change.abs c =>
      some (alSet db instr.account ((alGet db instr.account).getD 0 + c))
  | Change.rel target sign =>
      match alGet auth0 target with
      | none => none
      | some targetBalance =>
          let balance := (alGet db instr.account).getD 0
          match sign with
          | Sign.plus => some (alSet db instr.account (balance + targetBalance))
          | Sign.minus => some (alSet db instr.account (balance - targetBalance))

/-- One transaction of the spec-side Committer (§4.4): fee block as in
`commitTx`, instructions via `commitInstrSpec`. -/
def commitTxSpec (auth0 db : Accounts) (tx : Transaction) : Option Accounts :=
  let balance := (alGet db tx.fee.payer).getD 0
  let db1 := Earn db tx.fee.amount
  let db2 := alSet db1 tx.fee.payer (balance - tx.fee.amount)
  tx.instructions.foldlM (commitInstrSpec auth0) db2

/-- The spec-side Committer: every RelativeTransfer target read from the
pre-batch authoritative ledger `auth0`. -/
def CommitBatchSpec (auth0 db : Accounts) (batch : List Transaction) : Option Accounts :=
  batch.foldlM (commitTxSpec auth0) db

/-- Frame lemma: committing a transaction changes no account it does not
touch. -/
theorem commitTx_frame (db r : Accounts) (tx : Transaction) (a : String)
    (h : commitTx db tx = some r) (hna : touchedTx tx a = false) :
    alGet r a = alGet db a := by
  unfold touchedTx at hna
  rw [Bool.or_eq_false_iff, Bool.or_eq_false_iff] at hna
  obtain ⟨⟨hp, hv⟩, hinstr⟩ := hna
  unfold commitTx at h
  have h1 := foldlM_commitInstr_frame a tx.instructions _ r
    (fun i hi e => (List.any_eq_false.mp hinstr i hi) (decide_eq_true e)) h
  rw [h1, alGet_alSet_ne _ _ (of_decide_eq_false hp), Earn,
    alGet_alSet_ne _ _ (fun e => (of_decide_eq_false hv) e.symm)]

/-- A single commit instruction agrees with its spec-side version whenever
the working and pre-batch ledgers agree on the instruction's transfer
target (absolute deltas read no target at all). -/
theorem commitInstr_agree (auth0 db : Accounts) (i : Instruction)
    (h : ∀ tgt s, i.change = Change.rel tgt s → alGet db tgt = alGet auth0 tgt) :
    commitInstr db i = commitInstrSpec auth0 db i := by
  unfold commitInstr commitInstrSpec
  cases hch : i.change with
  | abs c => rfl
  | rel tgt s =>
      dsimp only
      rw [h tgt s hch]

/-- The instruction fold agrees with its spec-side version when the two
ledgers agree on all targets and no instruction of the list writes a
target. -/
theorem foldlM_commitInstr_agree (auth0 : Accounts) :
    ∀ (l : List Instruction) (db : Accounts),
      (∀ i ∈ l, ∀ tgt s, i.change = Change.rel tgt s →
          alGet db tgt = alGet auth0 tgt ∧ ∀ j ∈ l, j.account ≠ tgt) →
      l.foldlM commitInstr db = l.foldlM (commitInstrSpec auth0) db := by
  intro l
  induction l with
  | nil =>
      intro db _
      rfl
  | cons i rest ih =>
      intro db hh
      rw [List.foldlM_cons, List.foldlM_cons]
      have hstep : commitInstr db i = commitInstrSpec auth0 db i :=
        commitInstr_agree auth0 db i
          (fun tgt s hc => (hh i (List.mem_cons_self i rest) tgt s hc).1)
      rw [← hstep]
      cases hci : commitInstr db i with
      | none => rfl
      | some db' =>
          simp only [Option.bind_eq_bind, Option.some_bind]
          refine ih db' ?_
          intro j hj tgt s hc
          have hjj := hh j (List.mem_cons_of_mem i hj) tgt s hc
          refine ⟨?_, fun k hk => hjj.2 k (List.mem_cons_of_mem i hk)⟩
          rw [commitInstr_frame db db' i tgt hci
            (hjj.2 i (List.mem_cons_self i rest))]
          exact hjj.1

/-- One transaction's commit agrees with its spec-side version when the
working and pre-batch ledgers agree on the transaction's transfer targets
and the transaction itself writes none of them. -/
theorem commitTx_agree (auth0 db : Accounts) (tx : Transaction)
    (hh : ∀ i ∈ tx.instructions, ∀ tgt s, i.change = Change.rel tgt s →
        alGet db tgt = alGet auth0 tgt ∧ touchedTx tx tgt = false) :
    commitTx db tx = commitTxSpec auth0 db tx := by
  unfold commitTx commitTxSpec
  refine foldlM_commitInstr_agree auth0 tx.instructions _ ?_
  intro i hi tgt s hc
  obtain ⟨hag, htf⟩ := hh i hi tgt s hc
  unfold touchedTx at htf
  rw [Bool.or_eq_false_iff, Bool.or_eq_false_iff] at htf
  obtain ⟨⟨hp, hv⟩, hinstr⟩ := htf
  constructor
  · rw [alGet_alSet_ne _ _ (of_decide_eq_false hp), Earn,
      alGet_alSet_ne _ _ (fun e => (of_decide_eq_false hv) e.symm)]
    exact hag
  · intro j hj e
    exact (List.any_eq_false.mp hinstr j hj) (decide_eq_true e)

/-- Commit/spec-commit agreement for a whole batch, parameterised over the
running ledger so induction goes through. -/
theorem CommitBatch_untouched :
    ∀ (batch : List Transaction) (auth0 db : Accounts),
      (∀ t ∈ batch, ∀ i ∈ t.instructions, ∀ tgt s,
          i.change = Change.rel tgt s →
          alGet db tgt = alGet auth0 tgt ∧ touchedBatch batch tgt = false) →
      batch.foldlM commitTx db = batch.foldlM (commitTxSpec auth0) db := by
  intro batch
  induction batch with
  | nil =>
      intro auth0 db _
      rfl
  | cons t rest ih =>
      intro auth0 db hh
      rw [List.foldlM_cons, List.foldlM_cons]
      have hstep : commitTx db t = commitTxSpec auth0 db t := by
        refine commitTx_agree auth0 db t ?_
        intro i hi tgt s hc
        obtain ⟨hag, htb⟩ := hh t (List.mem_cons_self t rest) i hi tgt s hc
        unfold touchedBatch at htb
        rw [List.any_cons, Bool.or_eq_false_iff] at htb
        exact ⟨hag, htb.1⟩
      rw [← hstep]
      cases hct : commitTx db t with
      | none => rfl
      | some db' =>
          simp only [Option.bind_eq_bind, Option.some_bind]
          refine ih auth0 db' ?_
          intro u hu i hi tgt s hc
          obtain ⟨hag, htb⟩ := hh u (List.mem_cons_of_mem t hu) i hi tgt s hc
          unfold touchedBatch at htb
          rw [List.any_cons, Bool.or_eq_false_iff] at htb
          refine ⟨?_, htb.2⟩
          rw [commitTx_frame db db' t tgt hct htb.1]
          exact hag

/-- C3 (amended).  `CommitBatch` resolves RelativeTransfer targets from
the authoritative ledger as it stands mid-commit; whenever no transfer
target of the batch is an account the batch itself writes (fee payer,
`validator`, or any instruction account), this coincides with the
spec-side Committer `CommitBatchSpec`, which resolves every target from
the authoritative ledger as it stood before the batch's commit.  (In
general the two differ, and the post-commit state is not the final
working snapshot — see the counterexample.) -/
theorem c3_amended_untouched_targets_pre_batch :
    ∀ (auth : Accounts) (batch : List Transaction),
      (∀ t ∈ batch, ∀ i ∈ t.instructions, ∀ tgt s,
          i.change = Change.rel tgt s → touchedBatch batch tgt = false) →
      CommitBatch auth batch = CommitBatchSpec auth auth batch := by
  intro auth batch hh
  unfold CommitBatch CommitBatchSpec
  exact CommitBatch_untouched batch auth auth
    (fun t ht i hi tgt s hc => ⟨rfl, hh t ht i hi tgt s hc⟩)

/-- Witness for C3 (amended): a transfer whose target `m` is written by no
transaction of the batch commits identically under mid-commit and
pre-batch resolution. -/
theorem c3_amended_untouched_targets_pre_batch_witness :
    CommitBatch [("p", 5), ("q", 1), ("m", 3), ("validator", 0)]
        [⟨⟨"p", 1⟩, [⟨"q", Change.rel "m" Sign.plus⟩]⟩]
      = CommitBatchSpec [("p", 5), ("q", 1), ("m", 3), ("validator", 0)]
          [("p", 5), ("q", 1), ("m", 3), ("validator", 0)]
          [⟨⟨"p", 1⟩, [⟨"q", Change.rel "m" Sign.plus⟩]⟩] :=
  c3_amended_untouched_targets_pre_batch
    [("p", 5), ("q", 1), ("m", 3), ("validator", 0)]
    [⟨⟨"p", 1⟩, [⟨"q", Change.rel "m" Sign.plus⟩]⟩]
    (by intro t ht i hi tgt s hc
        rcases List.mem_singleton.mp ht with rfl
        rcases List.mem_singleton.mp hi with rfl
        cases hc
        with_unfolding_all decide)


/-! ## C7: the transaction heap

Verification of `container/heap`'s `up`/`down` sifts on the embedded
`TransactionHeap`: the heap invariant is preserved by `heapPush` and
`extractMax`, `extractMax` returns a maximal-score element and removes
exactly it, and on the empty heap it fails. -/

theorem heapLess_iff (l : List Transaction) (i j : Nat) :
    heapLess l i j = true ↔ scoreAt l j < scoreAt l i := by
  unfold heapLess
  exact decide_eq_true_iff

theorem length_swapAt (l : List Transaction) (i j : Nat) :
    (swapAt l i j).length = l.length := by
  unfold swapAt
  split
  · rw [List.length_set, List.length_set]
  · rfl

theorem getElem?_swapAt_ne (l : List Transaction) (i j k : Nat)
    (hki : k ≠ i) (hkj : k ≠ j) : (swapAt l i j)[k]? = l[k]? := by
  unfold swapAt
  split
  · rw [List.getElem?_set_ne (fun e => hkj e.symm),
      List.getElem?_set_ne (fun e => hki e.symm)]
  · rfl

theorem getElem?_swapAt (l : List Transaction) (i j k : Nat)
    (hi : i < l.length) (hj : j < l.length) :
    (swapAt l i j)[k]? =
      if k = j then l[i]? else if k = i then l[j]? else l[k]? := by
  unfold swapAt
  rw [List.getElem?_eq_getElem hi, List.getElem?_eq_getElem hj]
  dsimp only
  rw [List.getElem?_set, List.getElem?_set]
  by_cases hkj : k = j
  · subst hkj
    rw [if_pos rfl, if_pos rfl, if_pos (by rwa [List.length_set])]
  · rw [if_neg hkj, if_neg (fun e => hkj e.symm)]
    by_cases hki : k = i
    · subst hki
      rw [if_pos rfl, if_pos rfl, if_pos hi]
    · rw [if_neg hki, if_neg (fun e => hki e.symm)]

theorem scoreAt_swapAt (l : List Transaction) (i j k : Nat)
    (hi : i < l.length) (hj : j < l.length) :
    scoreAt (swapAt l i j) k =
      if k = j then scoreAt l i else if k = i then scoreAt l j else scoreAt l k := by
  unfold scoreAt
  rw [getElem?_swapAt l i j k hi hj]
  by_cases hkj : k = j
  · rw [if_pos hkj, if_pos hkj]
  · rw [if_neg hkj, if_neg hkj]
    by_cases hki : k = i
    · rw [if_pos hki, if_pos hki]
    · rw [if_neg hki, if_neg hki]

theorem swapAt_perm (l : List Transaction) (i j : Nat) :
    (swapAt l i j).Perm l := by
  unfold swapAt
  cases hgi : l[i]? with
  | none => exact List.Perm.refl l
  | some a =>
      cases hgj : l[j]? with
      | none => exact List.Perm.refl l
      | some b =>
          dsimp only
          have hi : i < l.length := by
            by_contra hc
            rw [List.getElem?_eq_none (Nat.le_of_not_lt hc)] at hgi
            cases hgi
          have hj : j < l.length := by
            by_contra hc
            rw [List.getElem?_eq_none (Nat.le_of_not_lt hc)] at hgj
            cases hgj
          have ha : l[i] = a := by
            have := List.getElem?_eq_getElem hi
            rw [hgi] at this
            exact (Option.some.inj this).symm
          have hb : l[j] = b := by
            have := List.getElem?_eq_getElem hj
            rw [hgj] at this
            exact (Option.some.inj this).symm
          rw [List.perm_iff_count]
          intro x
          have hj' : j < (l.set i b).length := by rwa [List.length_set]
          have hsj : (l.set i b)[j] = b := by
            rw [List.getElem_set]
            split
            · rfl
            · exact hb
          rw [List.count_set a x (l.set i b) j hj', List.count_set b x l i hi,
            hsj, ha]
          have hmem : a ∈ l := ha ▸ List.getElem_mem hi
          by_cases hax : (a == x) = true
          · have hcount : 1 ≤ List.count x l := by
              have : a = x := by simpa using hax
              subst this
              exact List.count_pos_iff.mpr hmem
            by_cases hbx : (b == x) = true
            · rw [if_pos hax, if_pos hbx]
              omega
            · rw [if_pos hax, if_neg hbx]
              omega
          · by_cases hbx : (b == x) = true
            · rw [if_neg hax, if_pos hbx]
              omega
            · rw [if_neg hax, if_neg hbx]
              omega


theorem length_downAux :
    ∀ (fuel : Nat) (l : List Transaction) (i n : Nat),
      (downAux fuel l i n).length = l.length := by
  intro fuel
  induction fuel with
  | zero => intro l i n; rfl
  | succ fuel ih =>
      intro l i n
      rw [downAux]
      dsimp only
      split
      · split
        · split
          · rw [ih, length_swapAt]
          · rfl
        · split
          · rw [ih, length_swapAt]
          · rfl
      · rfl

theorem getElem?_downAux_ge :
    ∀ (fuel : Nat) (l : List Transaction) (i n k : Nat),
      n ≤ k → (downAux fuel l i n)[k]? = l[k]? := by
  intro fuel
  induction fuel with
  | zero => intro l i n k _; rfl
  | succ fuel ih =>
      intro l i n k hnk
      rw [downAux]
      dsimp only
      split
      · next hj1 =>
          split
          · next hsel =>
              have h22 : 2 * i + 2 < n := by
                have hs := (Bool.and_eq_true _ _).mp hsel
                have := of_decide_eq_true hs.1
                omega
              split
              · rw [ih _ _ _ _ hnk,
                  getElem?_swapAt_ne l i _ k (by omega) (by omega)]
              · rfl
          · split
            · rw [ih _ _ _ _ hnk,
                getElem?_swapAt_ne l i _ k (by omega) (by omega)]
            · rfl
      · rfl

theorem downAux_perm :
    ∀ (fuel : Nat) (l : List Transaction) (i n : Nat),
      (downAux fuel l i n).Perm l := by
  intro fuel
  induction fuel with
  | zero => intro l i n; exact List.Perm.refl l
  | succ fuel ih =>
      intro l i n
      rw [downAux]
      dsimp only
      split
      · split
        · split
          · exact (ih _ _ _).trans (swapAt_perm l i _)
          · exact List.Perm.refl l
        · split
          · exact (ih _ _ _).trans (swapAt_perm l i _)
          · exact List.Perm.refl l
      · exact List.Perm.refl l

/-- The heap invariant restricted to the first `n` positions. -/
def HeapUpTo (l : List Transaction) (n : Nat) : Prop :=
  ∀ j, j < n → 0 < j → scoreAt l j ≤ scoreAt l ((j - 1) / 2)

/-- Invariant of the `down` sift at position `i`: the heap property holds
on the first `n` positions except possibly between `i` and its children,
and (when `i` is not the root) `i`'s children are dominated by `i`'s
parent. -/
def DownInv (l : List Transaction) (n i : Nat) : Prop :=
  (∀ j, j < n → 0 < j → (j - 1) / 2 ≠ i → scoreAt l j ≤ scoreAt l ((j - 1) / 2)) ∧
  (∀ c, c < n → (c - 1) / 2 = i → 0 < i → scoreAt l c ≤ scoreAt l ((i - 1) / 2))

theorem child_iff {i c : Nat} (hc : 0 < c) :
    (c - 1) / 2 = i ↔ c = 2 * i + 1 ∨ c = 2 * i + 2 := by
  omega


/-- When the chosen child `j` does not out-prioritise `i`, the sift stops
and the heap property holds up to `n`. -/
theorem downInv_stop (l : List Transaction) (n i : Nat)
    (hinv : DownInv l n i)
    (hstop : ∀ c, c < n → 0 < c → (c - 1) / 2 = i → scoreAt l c ≤ scoreAt l i) :
    HeapUpTo l n := by
  intro j hj hj0
  by_cases hpar : (j - 1) / 2 = i
  · rw [hpar]
    exact hstop j hj hj0 hpar
  · exact hinv.1 j hj hj0 hpar

/-- One swap of the `down` sift preserves the sift invariant, moving the
hole from `i` to the chosen child `j`. -/
theorem downInv_next (l : List Transaction) (n i j : Nat)
    (hn : n ≤ l.length) (hij : i < j) (hjn : j < n) (hchild : (j - 1) / 2 = i)
    (hsib : ∀ c, c < n → 0 < c → (c - 1) / 2 = i → scoreAt l c ≤ scoreAt l j)
    (hless : scoreAt l i < scoreAt l j)
    (hinv : DownInv l n i) :
    DownInv (swapAt l i j) n j := by
  have hi' : i < l.length := by omega
  have hj' : j < l.length := by omega
  have hsw : ∀ k, scoreAt (swapAt l i j) k =
      if k = j then scoreAt l i else if k = i then scoreAt l j else scoreAt l k :=
    fun k => scoreAt_swapAt l i j k hi' hj'
  have sj : scoreAt (swapAt l i j) j = scoreAt l i := by
    rw [hsw j, if_pos rfl]
  have si : scoreAt (swapAt l i j) i = scoreAt l j := by
    rw [hsw i, if_neg (by omega), if_pos rfl]
  have so : ∀ k, k ≠ i → k ≠ j → scoreAt (swapAt l i j) k = scoreAt l k := by
    intro k h1 h2
    rw [hsw k, if_neg h2, if_neg h1]
  constructor
  · intro k hk hk0 hkpar
    by_cases hkj : k = j
    · rw [hkj, hchild, sj, si]
      exact le_of_lt hless
    · by_cases hki : k = i
      · have hi0 : 0 < i := hki ▸ hk0
        rw [hki, si, so ((i - 1) / 2) (by omega) (by omega)]
        exact hinv.2 j hjn hchild hi0
      · by_cases hpi : (k - 1) / 2 = i
        · rw [hpi, so k hki hkj, si]
          exact hsib k hk hk0 hpi
        · rw [so k hki hkj, so _ hpi hkpar]
          exact hinv.1 k hk hk0 hpi
  · intro c hc hcpar hj0
    have hc1 : c ≠ j := by omega
    have hc2 : c ≠ i := by omega
    rw [hchild, so c hc2 hc1, si]
    have h1 := hinv.1 c hc (by omega) (by rw [hcpar]; omega)
    rw [hcpar] at h1
    exact h1

/-- The `down` sift turns the sift invariant into the heap property on the
first `n` positions, given enough fuel. -/
theorem downAux_heapUpTo :
    ∀ (fuel : Nat) (l : List Transaction) (i n : Nat),
      n ≤ fuel + i → n ≤ l.length → DownInv l n i →
      HeapUpTo (downAux fuel l i n) n := by
  intro fuel
  induction fuel with
  | zero =>
      intro l i n hfuel hn hinv
      refine downInv_stop l n i hinv ?_
      intro c hc hc0 hcpar
      have := (child_iff hc0).mp hcpar
      omega
  | succ fuel ih =>
      intro l i n hfuel hn hinv
      rw [downAux]
      dsimp only
      by_cases hj1 : 2 * i + 1 < n
      · rw [if_pos hj1]
        by_cases hsel :
            (decide (2 * i + 1 + 1 < n) && heapLess l (2 * i + 1 + 1) (2 * i + 1)) = true
        · rw [if_pos hsel]
          have hs := (Bool.and_eq_true _ _).mp hsel
          have h22 : 2 * i + 2 < n := by
            have := of_decide_eq_true hs.1
            omega
          have hbig : scoreAt l (2 * i + 1) < scoreAt l (2 * i + 1 + 1) :=
            (heapLess_iff l _ _).mp hs.2
          have hsib : ∀ c, c < n → 0 < c → (c - 1) / 2 = i →
              scoreAt l c ≤ scoreAt l (2 * i + 1 + 1) := by
            intro c hc hc0 hcpar
            rcases (child_iff hc0).mp hcpar with rfl | rfl
            · exact le_of_lt hbig
            · exact le_of_eq (by norm_num)
          by_cases hless : heapLess l (2 * i + 1 + 1) i = true
          · rw [if_pos hless]
            refine ih (swapAt l i (2 * i + 1 + 1)) (2 * i + 1 + 1) n (by omega)
              (by rw [length_swapAt]; exact hn) ?_
            exact downInv_next l n i (2 * i + 1 + 1) hn (by omega) (by omega)
              (by omega) hsib ((heapLess_iff l _ _).mp hless) hinv
          · rw [if_neg hless]
            refine downInv_stop l n i hinv ?_
            intro c hc hc0 hcpar
            have hnl : ¬ scoreAt l i < scoreAt l (2 * i + 1 + 1) := by
              intro hcon
              exact hless ((heapLess_iff l _ _).mpr hcon)
            exact le_trans (hsib c hc hc0 hcpar) (by omega)
        · rw [if_neg hsel]
          have hsib : ∀ c, c < n → 0 < c → (c - 1) / 2 = i →
              scoreAt l c ≤ scoreAt l (2 * i + 1) := by
            intro c hc hc0 hcpar
            rcases (child_iff hc0).mp hcpar with rfl | rfl
            · exact le_refl _
            · have h22 : 2 * i + 2 < n := hc
              have hdec : decide (2 * i + 1 + 1 < n) = true := by
                rw [decide_eq_true_iff]
                omega
              have hnot : heapLess l (2 * i + 1 + 1) (2 * i + 1) = false := by
                cases hhl : heapLess l (2 * i + 1 + 1) (2 * i + 1)
                · rfl
                · exact absurd (by rw [Bool.and_eq_true]; exact ⟨hdec, hhl⟩) hsel
              have : ¬ scoreAt l (2 * i + 1) < scoreAt l (2 * i + 1 + 1) := by
                intro hcon
                have := (heapLess_iff l (2 * i + 1 + 1) (2 * i + 1)).mpr hcon
                rw [this] at hnot
                cases hnot
              have he : (2 : Nat) * i + 1 + 1 = 2 * i + 2 := by omega
              rw [← he]
              omega
          by_cases hless : heapLess l (2 * i + 1) i = true
          · rw [if_pos hless]
            refine ih (swapAt l i (2 * i + 1)) (2 * i + 1) n (by omega)
              (by rw [length_swapAt]; exact hn) ?_
            exact downInv_next l n i (2 * i + 1) hn (by omega) (by omega)
              (by omega) hsib ((heapLess_iff l _ _).mp hless) hinv
          · rw [if_neg hless]
            refine downInv_stop l n i hinv ?_
            intro c hc hc0 hcpar
            have hnl : ¬ scoreAt l i < scoreAt l (2 * i + 1) := by
              intro hcon
              exact hless ((heapLess_iff l _ _).mpr hcon)
            exact le_trans (hsib c hc hc0 hcpar) (by omega)
      · rw [if_neg hj1]
        refine downInv_stop l n i hinv ?_
        intro c hc hc0 hcpar
        have := (child_iff hc0).mp hcpar
        omega


theorem length_upAux :
    ∀ (fuel : Nat) (l : List Transaction) (j : Nat),
      (upAux fuel l j).length = l.length := by
  intro fuel
  induction fuel with
  | zero => intro l j; rfl
  | succ fuel ih =>
      intro l j
      rw [upAux]
      dsimp only
      split
      · rfl
      · split
        · rw [ih, length_swapAt]
        · rfl

/-- Invariant of the `up` sift at position `j`: the heap property holds
everywhere except possibly between `j` and its parent, and `j`'s children
are dominated by `j`'s parent. -/
def UpInv (l : List Transaction) (j : Nat) : Prop :=
  (∀ k, k < l.length → 0 < k → k ≠ j → scoreAt l k ≤ scoreAt l ((k - 1) / 2)) ∧
  (∀ c, c < l.length → 0 < c → (c - 1) / 2 = j → 0 < j →
    scoreAt l c ≤ scoreAt l ((j - 1) / 2))

/-- One swap of the `up` sift preserves the sift invariant, moving the
hole from `j` to its parent `i`. -/
theorem upInv_next (l : List Transaction) (i j : Nat)
    (hlen : j < l.length) (hj0 : 0 < j) (hij : (j - 1) / 2 = i)
    (hless : scoreAt l i < scoreAt l j)
    (hinv : UpInv l j) :
    UpInv (swapAt l i j) i := by
  have hijlt : i < j := by omega
  have hi' : i < l.length := by omega
  have hsw : ∀ k, scoreAt (swapAt l i j) k =
      if k = j then scoreAt l i else if k = i then scoreAt l j else scoreAt l k :=
    fun k => scoreAt_swapAt l i j k hi' hlen
  have sj : scoreAt (swapAt l i j) j = scoreAt l i := by
    rw [hsw j, if_pos rfl]
  have si : scoreAt (swapAt l i j) i = scoreAt l j := by
    rw [hsw i, if_neg (by omega), if_pos rfl]
  have so : ∀ k, k ≠ i → k ≠ j → scoreAt (swapAt l i j) k = scoreAt l k := by
    intro k h1 h2
    rw [hsw k, if_neg h2, if_neg h1]
  have hlen' : (swapAt l i j).length = l.length := length_swapAt l i j
  constructor
  · intro k hk hk0 hki
    rw [hlen'] at hk
    by_cases hkj : k = j
    · rw [hkj, hij, sj, si]
      exact le_of_lt hless
    · by_cases hpj : (k - 1) / 2 = j
      · rw [hpj, so k hki hkj, sj]
        have h2 := hinv.2 k hk hk0 hpj hj0
        rw [hij] at h2
        exact h2
      · by_cases hpi : (k - 1) / 2 = i
        · rw [hpi, so k hki hkj, si]
          have h1 := hinv.1 k hk hk0 hkj
          rw [hpi] at h1
          exact le_trans h1 (le_of_lt hless)
        · rw [so k hki hkj, so _ hpi hpj]
          exact hinv.1 k hk hk0 hkj
  · intro c hc hc0 hcpar hi0
    rw [hlen'] at hc
    have hpar_ne_i : (i - 1) / 2 ≠ i := by omega
    have hpar_ne_j : (i - 1) / 2 ≠ j := by omega
    rw [so ((i - 1) / 2) hpar_ne_i hpar_ne_j]
    by_cases hcj : c = j
    · rw [hcj, sj]
      have h1 := hinv.1 i hi' hi0 (by omega)
      exact h1
    · have hcne_i : c ≠ i := by omega
      rw [so c hcne_i hcj]
      have h1 := hinv.1 c hc hc0 hcj
      rw [hcpar] at h1
      have h2 := hinv.1 i hi' hi0 (by omega)
      exact le_trans h1 h2

/-- The `up` sift restores the heap invariant from the sift invariant,
given enough fuel. -/
theorem upAux_isHeap :
    ∀ (fuel : Nat) (l : List Transaction) (j : Nat),
      j < fuel → j < l.length → UpInv l j → IsHeap (upAux fuel l j) := by
  intro fuel
  induction fuel with
  | zero =>
      intro l j hfuel
      omega
  | succ fuel ih =>
      intro l j hfuel hlen hinv
      rw [upAux]
      dsimp only
      by_cases hj0 : j = 0
      · rw [if_pos hj0]
        intro k hk hk0
        exact hinv.1 k hk hk0 (by omega)
      · rw [if_neg hj0]
        by_cases hless : heapLess l j ((j - 1) / 2) = true
        · rw [if_pos hless]
          refine ih (swapAt l ((j - 1) / 2) j) ((j - 1) / 2) (by omega)
            (by rw [length_swapAt]; omega) ?_
          exact upInv_next l ((j - 1) / 2) j hlen (by omega) rfl
            ((heapLess_iff _ _ _).mp hless) hinv
        · rw [if_neg hless]
          intro k hk hk0
          by_cases hkj : k = j
          · rw [hkj]
            have hc : ¬ scoreAt l ((j - 1) / 2) < scoreAt l j := fun hcon =>
              hless ((heapLess_iff _ _ _).mpr hcon)
            omega
          · exact hinv.1 k hk hk0 hkj

theorem scoreAt_append_lt (l : List Transaction) (t : Transaction) (k : Nat)
    (hk : k < l.length) : scoreAt (l ++ [t]) k = scoreAt l k := by
  unfold scoreAt
  rw [List.getElem?_append, if_pos hk]

/-- `heapPush` preserves the heap invariant. -/
theorem heapPush_isHeap (l : List Transaction) (t : Transaction)
    (h : IsHeap l) : IsHeap (heapPush l t) := by
  unfold heapPush up
  refine upAux_isHeap (l.length + 1) (l ++ [t]) l.length (by omega)
    (by rw [List.length_append]; simp) ?_
  constructor
  · intro k hk hk0 hkj
    rw [List.length_append] at hk
    have hkl : k < l.length := by
      simp only [List.length_singleton] at hk
      omega
    have hpl : (k - 1) / 2 < l.length := by omega
    rw [scoreAt_append_lt l t k hkl, scoreAt_append_lt l t _ hpl]
    exact h k hkl hk0
  · intro c hc hc0 hcpar hj0
    rw [List.length_append] at hc
    simp only [List.length_singleton] at hc
    have := (child_iff hc0).mp hcpar
    omega

/-- In a heap prefix, the root dominates every in-range position. -/
theorem heapUpTo_le_root (l : List Transaction) (n : Nat) (h : HeapUpTo l n) :
    ∀ i, i < n → scoreAt l i ≤ scoreAt l 0 := by
  intro i
  induction i using Nat.strong_induction_on with
  | _ i ih =>
      intro hi
      by_cases hi0 : i = 0
      · rw [hi0]
      · have h1 := h i hi (by omega)
        have h2 := ih ((i - 1) / 2) (by omega) (by omega)
        exact le_trans h1 h2

theorem scoreAt_of_lt (l : List Transaction) (k : Nat) (h : k < l.length) :
    scoreAt l k = CalcScore l[k] := by
  unfold scoreAt
  rw [List.getElem?_eq_getElem h]
  rfl

theorem scoreAt_dropLast (l : List Transaction) (k : Nat)
    (h : k < l.length - 1) : scoreAt l.dropLast k = scoreAt l k := by
  unfold scoreAt
  rw [List.getElem?_dropLast, if_pos h]


theorem extractMax_cons (x : Transaction) (xs : List Transaction) :
    extractMax (x :: xs) =
      match (down (swapAt (x :: xs) 0 xs.length) 0 xs.length).getLast? with
      | none => none
      | some tx =>
          some (tx, (down (swapAt (x :: xs) 0 xs.length) 0 xs.length).dropLast) :=
  rfl

/-- Full specification of `extractMax` on a non-empty heap: it returns the
root, which dominates every element, removes exactly one occurrence of it,
and leaves a heap. -/
theorem extractMax_spec (l : List Transaction) (hl : IsHeap l) (hne : l ≠ []) :
    ∃ tx l', extractMax l = some (tx, l') ∧
      (∀ u ∈ l, CalcScore u ≤ CalcScore tx) ∧
      l.Perm (tx :: l') ∧ IsHeap l' := by
  cases l with
  | nil => exact absurd rfl hne
  | cons x xs =>
      have hn_lt : xs.length < (x :: xs).length := by simp
      have hlen1 : (swapAt (x :: xs) 0 xs.length).length = xs.length + 1 := by
        rw [length_swapAt]
        rfl
      have hlen2 :
          (down (swapAt (x :: xs) 0 xs.length) 0 xs.length).length = xs.length + 1 := by
        unfold down
        rw [length_downAux]
        exact hlen1
      have hget2 :
          (down (swapAt (x :: xs) 0 xs.length) 0 xs.length)[xs.length]? = some x := by
        unfold down
        rw [getElem?_downAux_ge _ _ 0 xs.length xs.length le_rfl,
          getElem?_swapAt (x :: xs) 0 xs.length xs.length (by simp) hn_lt, if_pos rfl]
        simp
      have hgetlast :
          (down (swapAt (x :: xs) 0 xs.length) 0 xs.length).getLast? = some x := by
        rw [List.getLast?_eq_getElem?, hlen2]
        exact hget2
      have hx : extractMax (x :: xs) =
          some (x, (down (swapAt (x :: xs) 0 xs.length) 0 xs.length).dropLast) := by
        rw [extractMax_cons, hgetlast]
      refine ⟨x, (down (swapAt (x :: xs) 0 xs.length) 0 xs.length).dropLast,
        hx, ?_, ?_, ?_⟩
      · intro u hu
        rcases List.mem_iff_getElem.mp hu with ⟨i, hi, rfl⟩
        have hscore := heapUpTo_le_root (x :: xs) (x :: xs).length hl i hi
        rw [scoreAt_of_lt _ i hi, scoreAt_of_lt _ 0 (by simp)] at hscore
        exact hscore
      · have hp2 : (down (swapAt (x :: xs) 0 xs.length) 0 xs.length).Perm (x :: xs) := by
          unfold down
          exact (downAux_perm _ _ _ _).trans (swapAt_perm _ _ _)
        have hsplit :
            (down (swapAt (x :: xs) 0 xs.length) 0 xs.length).dropLast ++ [x] =
              down (swapAt (x :: xs) 0 xs.length) 0 xs.length :=
          List.dropLast_append_getLast? x hgetlast
        have hps := List.perm_append_singleton x
          (down (swapAt (x :: xs) 0 xs.length) 0 xs.length).dropLast
        rw [hsplit] at hps
        exact hp2.symm.trans hps
      · have hinv : DownInv (swapAt (x :: xs) 0 xs.length) xs.length 0 := by
          constructor
          · intro k hk hk0 hkpar
            have hkn : k ≠ xs.length := by omega
            rw [scoreAt_swapAt _ 0 xs.length k (by simp) hn_lt,
              if_neg hkn, if_neg (by omega),
              scoreAt_swapAt _ 0 xs.length _ (by simp) hn_lt,
              if_neg (by omega : (k - 1) / 2 ≠ xs.length), if_neg hkpar]
            exact hl k (by simp; omega) hk0
          · intro c hc hc0 hcpar
            omega
        have hup : HeapUpTo (down (swapAt (x :: xs) 0 xs.length) 0 xs.length)
            xs.length := by
          unfold down
          refine downAux_heapUpTo (xs.length + 1) _ 0 xs.length (by omega) ?_ hinv
          rw [hlen1]
          omega
        intro k hk hk0
        rw [List.length_dropLast, hlen2] at hk
        rw [scoreAt_dropLast _ k (by rw [hlen2]; omega),
          scoreAt_dropLast _ _ (by rw [hlen2]; omega)]
        exact hup k (by omega) hk0


/-- C7.  Heap behaviour of the pending queue: on the empty queue,
extraction fails (`container/heap`'s `Pop` indexes out of bounds there —
the embedded `extractMax` returns `none` rather than succeeding); on every
heap-invariant queue state, `extractMax` removes and returns a transaction
of maximal score — no queued transaction scores strictly higher — and both
`extractMax` and `heapPush` preserve the heap invariant, so every
pending-queue state reachable from the empty queue satisfies it. -/
theorem c7_extract_max_behavior :
    extractMax [] = none ∧
    (∀ l, IsHeap l → l ≠ [] →
      ∃ tx l', extractMax l = some (tx, l') ∧
        (∀ u ∈ l, CalcScore u ≤ CalcScore tx) ∧
        l.Perm (tx :: l') ∧ IsHeap l') ∧
    (∀ l t, IsHeap l → IsHeap (heapPush l t)) :=
  ⟨rfl, fun l hl hne => extractMax_spec l hl hne,
    fun l t h => heapPush_isHeap l t h⟩

/-- Witness for C7: extraction from a concrete three-element heap. -/
theorem c7_extract_max_behavior_witness :
    ∃ tx l',
      extractMax [⟨⟨"w", 10⟩, []⟩, ⟨⟨"w", 9⟩, []⟩, ⟨⟨"w", 5⟩, []⟩] = some (tx, l') ∧
      (∀ u ∈ [(⟨⟨"w", 10⟩, []⟩ : Transaction), ⟨⟨"w", 9⟩, []⟩, ⟨⟨"w", 5⟩, []⟩],
        CalcScore u ≤ CalcScore tx) ∧
      ([(⟨⟨"w", 10⟩, []⟩ : Transaction), ⟨⟨"w", 9⟩, []⟩, ⟨⟨"w", 5⟩, []⟩]).Perm
        (tx :: l') ∧ IsHeap l' :=
  c7_extract_max_behavior.2.1
    [⟨⟨"w", 10⟩, []⟩, ⟨⟨"w", 9⟩, []⟩, ⟨⟨"w", 5⟩, []⟩]
    (by with_unfolding_all decide)
    (by simp)

end Txn
